import Mathlib

/-!
Verification of the daily-habit tracker's persistence layer (`app.js`) and
offline asset cache (service worker).

The record store is a shallow embedding of the IndexedDB object store
`dailyData` with `keyPath: 'date'`: a store state is the list of persisted
records, keyed by the `date` field (IndexedDB guarantees at most one record
per key; the key-uniqueness hypothesis in the theorems below expresses that
engine invariant).  Asynchronous completion (Promise resolution) is embedded
as plain function results; the clock (`getTodayDateString`) is passed as an
explicit `today` argument where the source reads it at call time.
-/

/-- A per-task entry: completion flag and free-text note
(value shape `{ completed: boolean, note: string }` in `app.js`). -/
structure TaskEntry where
  completed : Bool
  note : String
deriving DecidableEq, Repr

/-- A day record as persisted: `{ date, tasks }` where `tasks` maps a task id
to a `TaskEntry`.  The JS object keyed by task id is embedded as an
association list. -/
structure DayRecord where
  date : String
  tasks : List (Nat × TaskEntry)
deriving DecidableEq, Repr

/-- One entry of the fixed task catalog. -/
structure FixedTask where
  id : Nat
  name : String
deriving DecidableEq, Repr

/-- The 7 fixed daily tasks (`DAILY_TASKS` in `app.js`). -/
def DAILY_TASKS : List FixedTask :=
  [⟨1, "Read technical paper"⟩,
   ⟨2, "Read technical book"⟩,
   ⟨3, "Read any book"⟩,
   ⟨4, "Run"⟩,
   ⟨5, "Strength training"⟩,
   ⟨6, "Reflection (daily gospel digest)"⟩,
   ⟨7, "Coding (side projects)"⟩]

/-- A state of the `dailyData` object store: the persisted records. -/
abbrev Store := List DayRecord

/-- `store.get(dateString)`: the IndexedDB get by key (`keyPath: 'date'`),
the first record whose `date` equals the key. -/
def idbGet (st : Store) (d : String) : Option DayRecord :=
  st.find? (fun r => r.date == d)

/-- Property access `tasks[taskId]` on the embedded association list. -/
def taskLookup (tasks : List (Nat × TaskEntry)) (taskId : Nat) : Option TaskEntry :=
  match tasks with
  | [] => none
  | p :: ps => if p.1 = taskId then some p.2 else taskLookup ps taskId

/-- The default task map built by the `DAILY_TASKS.forEach` loop in
`loadDataForDate`: every fixed task id mapped to
`{ completed: false, note: '' }`. -/
def defaultTasks : List (Nat × TaskEntry) :=
  DAILY_TASKS.map (fun t => (t.id, { completed := false, note := "" }))

/-- `loadDataForDate(dateString)` (`app.js` lines 98-130): return the
persisted record if present, otherwise synthesize (without persisting) the
default record for that date. -/
def loadDataForDate (st : Store) (d : String) : DayRecord :=
  match idbGet st d with
  | some data => data
  | none => { date := d, tasks := defaultTasks }

/-- `saveData(data)` (`app.js` lines 138-152): `store.put(data)` upserts the
record keyed by its `date` field, replacing any record with the same key. -/
def saveData (st : Store) (r : DayRecord) : Store :=
  st.filter (fun x => x.date != r.date) ++ [r]

/-- `getAllData()` (`app.js` lines 179-193): `store.getAll()`, every
persisted record. -/
def getAllData (st : Store) : List DayRecord :=
  st

/-- Lexicographic (codepoint) order on character lists: the order
`localeCompare` induces on the zero-padded fixed-width date strings. -/
def charListLt : List Char → List Char → Bool
  | [], [] => false
  | [], _ :: _ => true
  | _ :: _, [] => false
  | a :: as, b :: bs =>
    if a < b then true
    else if b < a then false
    else charListLt as bs

/-- Strict comparison of two date strings. -/
def dateLt (a b : String) : Bool :=
  charListLt a.data b.data

/-- One step of the JS `sort((a, b) => b.date.localeCompare(a.date))`:
insert a record into a date-descending list. -/
def insertDesc (r : DayRecord) : List DayRecord → List DayRecord
  | [] => [r]
  | x :: xs => if dateLt x.date r.date then r :: x :: xs else x :: insertDesc r xs

/-- The date-descending sort applied by `getAllHistoryData`. -/
def sortByDateDesc : List DayRecord → List DayRecord
  | [] => []
  | x :: xs => insertDesc x (sortByDateDesc xs)

/-- `getAllHistoryData()` (`app.js` lines 155-176): filter out the record
whose date equals today's date string (computed at call time, passed here
explicitly), then sort date-descending. -/
def getAllHistoryData (st : Store) (today : String) : List DayRecord :=
  sortByDateDesc ((getAllData st).filter (fun item => item.date != today))

/-- Does a record contain an entry for every fixed task id?  (The invariant
of §3 of the spec.) -/
def hasAllTasks (r : DayRecord) : Bool :=
  DAILY_TASKS.all (fun t => (taskLookup r.tasks t.id).isSome)

/-- The in-place mutation `data.tasks[taskId].note = noteText` of `saveNote`:
update the note of the entry keyed by `taskId`. -/
def setNote (tasks : List (Nat × TaskEntry)) (taskId : Nat) (text : String) :
    List (Nat × TaskEntry) :=
  tasks.map (fun p => if p.1 = taskId then (p.1, { p.2 with note := text }) else p)

/-- `saveNote()` (`app.js` lines 685-702): trim the textarea value, load
today's record, set the note of the current task, and save the record. -/
def saveNote (st : Store) (today : String) (taskId : Nat) (text : String) : Store :=
  let data := loadDataForDate st today
  saveData st { data with tasks := setNote data.tasks taskId text.trim }

-- ============================================
-- Helper lemmas about the record store
-- ============================================

/-- Searching for a key at the end of a list none of whose elements carry
that key finds the appended record. -/
theorem find?_key_append (l : List DayRecord) (r : DayRecord)
    (h : ∀ x ∈ l, x.date ≠ r.date) :
    (l ++ [r]).find? (fun x => x.date == r.date) = some r := by
  induction l with
  | nil => simp [List.find?]
  | cons x xs ih =>
    have hx : (x.date == r.date) = false := by
      simpa using h x (List.mem_cons_self x xs)
    rw [List.cons_append, List.find?_cons, hx]
    exact ih (fun y hy => h y (List.mem_cons_of_mem x hy))

/-- Looking up the freshly written key after an upsert finds the new record. -/
theorem idbGet_saveData (st : Store) (r : DayRecord) :
    idbGet (saveData st r) r.date = some r := by
  unfold idbGet saveData
  apply find?_key_append
  intro x hx
  have := List.of_mem_filter hx
  simpa using this

/-- A record found by `idbGet` is a member of the store with the queried
date. -/
theorem idbGet_mem (st : Store) (d : String) (r : DayRecord)
    (h : idbGet st d = some r) : r ∈ st ∧ r.date = d := by
  unfold idbGet at h
  refine ⟨List.mem_of_find?_eq_some h, ?_⟩
  have := List.find?_some h
  simpa using this

/-- When `idbGet` misses, no persisted record carries that date. -/
theorem idbGet_none (st : Store) (d : String) (h : idbGet st d = none) :
    ∀ r ∈ st, r.date ≠ d := by
  intro r hr
  unfold idbGet at h
  have := List.find?_eq_none.mp h r hr
  simpa using this

/-- The record returned by `loadDataForDate` always carries the queried
date. -/
theorem loadDataForDate_date (st : Store) (d : String) :
    (loadDataForDate st d).date = d := by
  unfold loadDataForDate
  cases h : idbGet st d with
  | none => rfl
  | some data => exact (idbGet_mem st d data h).2

-- ============================================
-- Lemmas about the date-descending sort
-- ============================================

/-- `charListLt` is asymmetric. -/
theorem charListLt_asymm : ∀ as bs, charListLt as bs = true → charListLt bs as = false
  | [], [] => by simp [charListLt]
  | [], _ :: _ => by simp [charListLt]
  | _ :: _, [] => by simp [charListLt]
  | a :: as, b :: bs => by
    intro h
    unfold charListLt at h ⊢
    by_cases h1 : a < b
    · have h2 : ¬ b < a := fun hba => lt_asymm h1 hba
      simp [h1, h2]
    · by_cases h2 : b < a
      · simp [h1, h2] at h
      · simp only [h1, h2, if_false, ite_false] at h ⊢
        exact charListLt_asymm as bs h

/-- `charListLt` is transitive. -/
theorem charListLt_trans : ∀ as bs cs, charListLt as bs = true →
    charListLt bs cs = true → charListLt as cs = true
  | [], [], _ => by simp [charListLt]
  | [], _ :: _, [] => by intro _ h; simp [charListLt] at h
  | [], _ :: _, _ :: _ => by simp [charListLt]
  | _ :: _, [], _ => by intro h; simp [charListLt] at h
  | _ :: _, _ :: _, [] => by intro _ h; simp [charListLt] at h
  | a :: as, b :: bs, c :: cs => by
    intro h1 h2
    unfold charListLt at h1 h2 ⊢
    by_cases hab : a < b
    · by_cases hbc : b < c
      · simp [lt_trans hab hbc]
      · by_cases hcb : c < b
        · simp [hbc, hcb] at h2
        · have hbceq : b = c := le_antisymm (le_of_not_lt hcb) (le_of_not_lt hbc)
          simp [hbceq ▸ hab]
    · by_cases hba : b < a
      · simp [hab, hba] at h1
      · have habeq : a = b := le_antisymm (le_of_not_lt hba) (le_of_not_lt hab)
        by_cases hbc : b < c
        · simp [habeq ▸ hbc]
        · by_cases hcb : c < b
          · simp [hbc, hcb] at h2
          · have hac : ¬ a < c := habeq ▸ hbc
            have hca : ¬ c < a := habeq ▸ hcb
            simp only [hab, hba, if_false, ite_false] at h1
            simp only [hbc, hcb, if_false, ite_false] at h2
            simp only [hac, hca, if_false, ite_false]
            exact charListLt_trans as bs cs h1 h2

/-- `charListLt` is connex: two unequal lists compare strictly one way. -/
theorem charListLt_connex : ∀ as bs, charListLt as bs = false →
    charListLt bs as = true ∨ as = bs
  | [], [] => fun _ => Or.inr rfl
  | [], _ :: _ => by simp [charListLt]
  | _ :: _, [] => by simp [charListLt]
  | a :: as, b :: bs => by
    intro h
    unfold charListLt at h ⊢
    by_cases hab : a < b
    · simp [hab] at h
    · by_cases hba : b < a
      · simp [hba]
      · have habeq : a = b := le_antisymm (le_of_not_lt hba) (le_of_not_lt hab)
        simp only [hab, hba, if_false, ite_false] at h
        have h2 : ¬ b < b := lt_irrefl b
        rcases charListLt_connex as bs h with hlt | heq
        · subst habeq
          simp only [h2, if_false, ite_false]
          exact Or.inl hlt
        · exact Or.inr (by rw [habeq, heq])

/-- `dateLt` is asymmetric. -/
theorem dateLt_asymm (a b : String) (h : dateLt a b = true) : dateLt b a = false :=
  charListLt_asymm a.data b.data h

/-- `dateLt` is transitive. -/
theorem dateLt_trans (a b c : String) (h1 : dateLt a b = true)
    (h2 : dateLt b c = true) : dateLt a c = true :=
  charListLt_trans a.data b.data c.data h1 h2

/-- `dateLt` is connex. -/
theorem dateLt_connex (a b : String) (h : dateLt a b = false) :
    dateLt b a = true ∨ a = b := by
  rcases charListLt_connex a.data b.data h with hlt | heq
  · exact Or.inl hlt
  · right
    cases a
    cases b
    exact congrArg String.mk heq

/-- `insertDesc` produces a permutation of consing the record. -/
theorem insertDesc_perm (r : DayRecord) (l : List DayRecord) :
    List.Perm (insertDesc r l) (r :: l) := by
  induction l with
  | nil => rfl
  | cons x xs ih =>
    unfold insertDesc
    cases hx : dateLt x.date r.date with
    | true => simp
    | false =>
      simp only [Bool.false_eq_true, if_false, ite_false]
      exact (ih.cons x).trans (List.Perm.swap r x xs)

/-- `sortByDateDesc` permutes its input. -/
theorem sortByDateDesc_perm (l : List DayRecord) : List.Perm (sortByDateDesc l) l := by
  induction l with
  | nil => rfl
  | cons x xs ih =>
    unfold sortByDateDesc
    exact (insertDesc_perm x (sortByDateDesc xs)).trans (ih.cons x)

/-- Membership after `insertDesc`. -/
theorem insertDesc_mem (r b : DayRecord) (l : List DayRecord) :
    b ∈ insertDesc r l ↔ b = r ∨ b ∈ l := by
  rw [(insertDesc_perm r l).mem_iff]
  simp

/-- `insertDesc` preserves date-nonincreasing sortedness (later records never
compare strictly above earlier ones). -/
theorem insertDesc_sorted (r : DayRecord) (l : List DayRecord)
    (h : l.Pairwise (fun a b => dateLt a.date b.date = false)) :
    (insertDesc r l).Pairwise (fun a b => dateLt a.date b.date = false) := by
  induction l with
  | nil => simp [insertDesc]
  | cons x xs ih =>
    rcases List.pairwise_cons.mp h with ⟨hx, hxs⟩
    unfold insertDesc
    cases hlt : dateLt x.date r.date with
    | true =>
      simp only [if_true, ite_true]
      refine List.pairwise_cons.mpr ⟨?_, h⟩
      intro b hb
      rcases List.mem_cons.mp hb with hb | hb
      · exact hb ▸ dateLt_asymm x.date r.date hlt
      · cases hrb : dateLt r.date b.date with
        | false => rfl
        | true =>
          have : dateLt x.date b.date = true := dateLt_trans _ _ _ hlt hrb
          rw [hx b hb] at this
          exact absurd this (by simp)
    | false =>
      simp only [Bool.false_eq_true, if_false, ite_false]
      refine List.pairwise_cons.mpr ⟨?_, ih hxs⟩
      intro b hb
      rcases (insertDesc_mem r b xs).mp hb with hb | hb
      · exact hb ▸ hlt
      · exact hx b hb

/-- The sorted output is date-nonincreasing. -/
theorem sortByDateDesc_sorted (l : List DayRecord) :
    (sortByDateDesc l).Pairwise (fun a b => dateLt a.date b.date = false) := by
  induction l with
  | nil => simp [sortByDateDesc]
  | cons x xs ih => exact insertDesc_sorted x (sortByDateDesc xs) ih

/-- Two pairwise facts combine pointwise. -/
theorem pairwise_combine {α : Type} {R S : α → α → Prop} (l : List α)
    (hR : l.Pairwise R) (hS : l.Pairwise S) :
    l.Pairwise (fun a b => R a b ∧ S a b) := by
  induction l with
  | nil => simp
  | cons x xs ih =>
    rcases List.pairwise_cons.mp hR with ⟨hRx, hRxs⟩
    rcases List.pairwise_cons.mp hS with ⟨hSx, hSxs⟩
    exact List.pairwise_cons.mpr ⟨fun b hb => ⟨hRx b hb, hSx b hb⟩, ih hRxs hSxs⟩

/-- On a list with pairwise-distinct dates the sorted output is strictly
date-descending. -/
theorem sortByDateDesc_strict (l : List DayRecord)
    (hnd : (l.map DayRecord.date).Nodup) :
    (sortByDateDesc l).Pairwise (fun a b => dateLt b.date a.date = true) := by
  have hperm : List.Perm ((sortByDateDesc l).map DayRecord.date) (l.map DayRecord.date) :=
    (sortByDateDesc_perm l).map DayRecord.date
  have hnd₂ : ((sortByDateDesc l).map DayRecord.date).Nodup :=
    hperm.nodup_iff.mpr hnd
  have hne : (sortByDateDesc l).Pairwise (fun a b => a.date ≠ b.date) :=
    (List.pairwise_map).mp hnd₂
  have hcomb := pairwise_combine (sortByDateDesc l) (sortByDateDesc_sorted l) hne
  refine hcomb.imp ?_
  rintro a b ⟨hge, hneq⟩
  rcases dateLt_connex a.date b.date hge with hlt | heq
  · exact hlt
  · exact absurd heq hneq

-- ============================================
-- Concrete records for witnesses and examples
-- ============================================

/-- A well-formed record for a date with the given task ids completed. -/
def mkRecord (d : String) (completedIds : List Nat) : DayRecord :=
  { date := d,
    tasks := DAILY_TASKS.map (fun t =>
      (t.id, { completed := completedIds.contains t.id, note := "" })) }

/-- The store of §8's example: records for 2025-01-01 (3/7), 2025-01-02
(7/7) and 2025-01-03 (0/7), written through `saveData`. -/
def exampleStore : Store :=
  saveData (saveData (saveData [] (mkRecord "2025-01-01" [1, 2, 3]))
    (mkRecord "2025-01-02" [1, 2, 3, 4, 5, 6, 7])) (mkRecord "2025-01-03" [])

/-- Filtering twice with the same predicate equals filtering once. -/
theorem filter_self_idem {α : Type} (p : α → Bool) (l : List α) :
    (l.filter p).filter p = l.filter p := by
  induction l with
  | nil => rfl
  | cons x xs ih =>
    cases hx : p x with
    | true => simp [List.filter_cons, hx, ih]
    | false => simp [List.filter_cons, hx, ih]

/-- Membership in the history view: exactly the persisted records whose
date differs from the excluded one. -/
theorem mem_getAllHistoryData (st : Store) (today : String) (r : DayRecord) :
    r ∈ getAllHistoryData st today ↔ r ∈ st ∧ r.date ≠ today := by
  unfold getAllHistoryData getAllData
  rw [(sortByDateDesc_perm _).mem_iff, List.mem_filter]
  simp

-- ============================================
-- Claim theorems: record store
-- ============================================

/-- C1: for every well-formed `DayRecord` `r`, `saveData r` followed by
`loadDataForDate r.date` on the resulting store returns a record equal
(deep-equal in JS, structural equality here) to `r`. -/
theorem put_get_roundtrip (st : Store) (r : DayRecord)
    (_h : hasAllTasks r = true) :
    loadDataForDate (saveData st r) r.date = r := by
  unfold loadDataForDate
  rw [idbGet_saveData]

/-- Witness for C1 at a concrete store and record. -/
theorem put_get_roundtrip_witness :
    hasAllTasks (mkRecord "2025-03-04" [1, 4]) = true
      ∧ loadDataForDate (saveData [] (mkRecord "2025-03-04" [1, 4])) "2025-03-04"
          = mkRecord "2025-03-04" [1, 4] :=
  ⟨by decide, put_get_roundtrip [] (mkRecord "2025-03-04" [1, 4]) (by decide)⟩

/-- Every entry of the default task map is incomplete with an empty note. -/
theorem defaultTasks_entries :
    ∀ p ∈ defaultTasks, p.2.completed = false ∧ p.2.note = "" := by
  decide

/-- The default task map answers every fixed task id with the default
entry. -/
theorem defaultTasks_covers :
    ∀ t ∈ DAILY_TASKS, taskLookup defaultTasks t.id
      = some { completed := false, note := "" } := by
  decide

/-- C2: for a date with no persisted record, `loadDataForDate` returns the
default record for that date — all 7 fixed task ids exactly, each incomplete
with an empty note — and the store is left unchanged (the date still does
not appear in `getAllData`). -/
theorem default_record_for_missing_date (st : Store) (d : String)
    (h : idbGet st d = none) :
    (loadDataForDate st d).date = d
    ∧ (loadDataForDate st d).tasks.map Prod.fst = [1, 2, 3, 4, 5, 6, 7]
    ∧ (∀ p ∈ (loadDataForDate st d).tasks, p.2.completed = false ∧ p.2.note = "")
    ∧ (∀ t ∈ DAILY_TASKS, taskLookup (loadDataForDate st d).tasks t.id
        = some { completed := false, note := "" })
    ∧ (∀ r ∈ getAllData st, r.date ≠ d) := by
  have hload : loadDataForDate st d = { date := d, tasks := defaultTasks } := by
    unfold loadDataForDate
    rw [h]
  refine ⟨by rw [hload], by rw [hload]; rfl, by rw [hload]; exact defaultTasks_entries,
    by rw [hload]; exact defaultTasks_covers, idbGet_none st d h⟩

/-- Witness for C2 on the empty store. -/
theorem default_record_for_missing_date_witness :
    (loadDataForDate [] "2026-02-03").date = "2026-02-03"
    ∧ (loadDataForDate [] "2026-02-03").tasks.map Prod.fst = [1, 2, 3, 4, 5, 6, 7]
    ∧ (∀ p ∈ (loadDataForDate [] "2026-02-03").tasks, p.2.completed = false ∧ p.2.note = "")
    ∧ (∀ t ∈ DAILY_TASKS, taskLookup (loadDataForDate [] "2026-02-03").tasks t.id
        = some { completed := false, note := "" })
    ∧ (∀ r ∈ getAllData [], r.date ≠ "2026-02-03") :=
  default_record_for_missing_date [] "2026-02-03" rfl

/-- C9: `saveData` is idempotent — saving the same record twice leaves the
store state identical to saving it once — and it overwrites the record for
`r.date` with the full record `r`. -/
theorem put_idempotent_overwrites (st : Store) (r : DayRecord) :
    saveData (saveData st r) r = saveData st r
    ∧ idbGet (saveData st r) r.date = some r := by
  constructor
  · unfold saveData
    rw [List.filter_append, filter_self_idem]
    simp
  · exact idbGet_saveData st r

/-- C7: every record `loadDataForDate` returns — synthesized default or
read back — has an entry for all 7 fixed task ids, provided the store holds
only well-formed records; and `saveData` of a well-formed record preserves
that store invariant (so stores reachable from the empty store through the
app's saves satisfy it). -/
theorem all_tasks_invariant (st : Store) (d : String)
    (hst : ∀ r ∈ st, hasAllTasks r = true) :
    hasAllTasks (loadDataForDate st d) = true
    ∧ ∀ r', hasAllTasks r' = true → ∀ x ∈ saveData st r', hasAllTasks x = true := by
  constructor
  · unfold loadDataForDate
    cases h : idbGet st d with
    | some data => exact hst data (idbGet_mem st d data h).1
    | none => rfl
  · intro r' hr' x hx
    unfold saveData at hx
    rcases List.mem_append.mp hx with hx | hx
    · exact hst x (List.mem_of_mem_filter hx)
    · have : x = r' := List.mem_singleton.mp hx
      exact this ▸ hr'

/-- Witness for C7 on the empty store. -/
theorem all_tasks_invariant_witness :
    hasAllTasks (loadDataForDate [] "2025-01-01") = true :=
  (all_tasks_invariant [] "2025-01-01" (by simp)).1

/-- Updating the note of a present task id stores exactly the new note on
that entry. -/
theorem taskLookup_setNote (tasks : List (Nat × TaskEntry)) (taskId : Nat)
    (text : String) :
    taskLookup (setNote tasks taskId text) taskId
      = (taskLookup tasks taskId).map (fun e => { e with note := text }) := by
  induction tasks with
  | nil => rfl
  | cons p ps ih =>
    by_cases hp : p.1 = taskId
    · simp [setNote, taskLookup, hp]
    · simp only [setNote, List.map_cons, if_neg hp]
      rw [taskLookup, if_neg hp, taskLookup, if_neg hp]
      simpa [setNote] using ih

/-- C8: the note persisted by `saveNote` is the supplied text trimmed of
leading/trailing whitespace: after the save, the stored record for the day
maps the task to an entry whose note is `text.trim`. -/
theorem note_trimmed_on_save (st : Store) (today : String) (taskId : Nat)
    (text : String)
    (h : (taskLookup (loadDataForDate st today).tasks taskId).isSome = true) :
    ∃ rec, idbGet (saveNote st today taskId text) today = some rec
      ∧ ∃ e, taskLookup rec.tasks taskId = some e ∧ e.note = text.trim := by
  unfold saveNote
  have hdate : (loadDataForDate st today).date = today := loadDataForDate_date st today
  have hget := idbGet_saveData st
    { loadDataForDate st today with
        tasks := setNote (loadDataForDate st today).tasks taskId text.trim }
  rw [show ({ loadDataForDate st today with
        tasks := setNote (loadDataForDate st today).tasks taskId text.trim } :
      DayRecord).date = today from hdate] at hget
  refine ⟨_, hget, ?_⟩
  rcases Option.isSome_iff_exists.mp h with ⟨e, he⟩
  refine ⟨{ e with note := text.trim }, ?_, rfl⟩
  show taskLookup (setNote (loadDataForDate st today).tasks taskId text.trim) taskId = _
  rw [taskLookup_setNote, he]
  rfl

/-- Witness for C8: saving a padded note on the empty store stores the
trimmed text. -/
theorem note_trimmed_on_save_witness :
    ∃ rec, idbGet (saveNote [] "2025-01-01" 3 "  hello  ") "2025-01-01" = some rec
      ∧ ∃ e, taskLookup rec.tasks 3 = some e ∧ e.note = "  hello  ".trim :=
  note_trimmed_on_save [] "2025-01-01" 3 "  hello  " (by decide)

/-- C3: with unique store keys (the IndexedDB `keyPath` invariant), the
history view contains exactly the persisted records whose date differs from
the excluded date, strictly descending by date string; and on the spec's
three-record example it returns the 2025-01-02 and 2025-01-01 records in
that order. -/
theorem history_excludes_and_sorted (st : Store) (d : String)
    (hnd : (st.map DayRecord.date).Nodup) :
    (∀ r, r ∈ getAllHistoryData st d ↔ r ∈ st ∧ r.date ≠ d)
    ∧ (getAllHistoryData st d).Pairwise (fun a b => dateLt b.date a.date = true)
    ∧ getAllHistoryData exampleStore "2025-01-03"
        = [mkRecord "2025-01-02" [1, 2, 3, 4, 5, 6, 7], mkRecord "2025-01-01" [1, 2, 3]] := by
  refine ⟨fun r => mem_getAllHistoryData st d r, ?_, by rfl⟩
  unfold getAllHistoryData getAllData
  apply sortByDateDesc_strict
  exact hnd.sublist ((List.filter_sublist st).map DayRecord.date)

/-- Witness for C3 on the spec's example store. -/
theorem history_excludes_and_sorted_witness :
    (getAllHistoryData exampleStore "2025-01-03").Pairwise
      (fun a b => dateLt b.date a.date = true) :=
  (history_excludes_and_sorted exampleStore "2025-01-03" (by decide)).2.1

/-- C10: the excluded date of the history view is the current date computed
at call time, not a caller parameter: a persisted record for any other date
is always included, a record for the call-time date is excluded, and the
same store queried with a different current date yields a different
result. -/
theorem history_excluded_is_call_time_today (st : Store) (t₁ t₂ : String)
    (r : DayRecord) (hmem : r ∈ st) :
    (r.date ≠ t₁ → r ∈ getAllHistoryData st t₁)
    ∧ (r.date = t₁ → r ∉ getAllHistoryData st t₁)
    ∧ (r.date = t₁ → t₁ ≠ t₂ →
        r ∈ getAllHistoryData st t₂ ∧ getAllHistoryData st t₁ ≠ getAllHistoryData st t₂) := by
  refine ⟨fun hne => (mem_getAllHistoryData st t₁ r).mpr ⟨hmem, hne⟩, ?_, ?_⟩
  · intro heq hin
    exact ((mem_getAllHistoryData st t₁ r).mp hin).2 heq
  · intro heq hne
    have hin : r ∈ getAllHistoryData st t₂ :=
      (mem_getAllHistoryData st t₂ r).mpr ⟨hmem, heq ▸ hne⟩
    refine ⟨hin, fun hlists => ?_⟩
    have : r ∈ getAllHistoryData st t₁ := hlists ▸ hin
    exact ((mem_getAllHistoryData st t₁ r).mp this).2 heq

/-- Witness for C10: the 2025-01-03 record is excluded when queried on
2025-01-03 but included when queried on 2025-01-04, so the two query days
give different results on the same store. -/
theorem history_excluded_is_call_time_today_witness :
    mkRecord "2025-01-03" [] ∈ getAllHistoryData exampleStore "2025-01-04"
      ∧ getAllHistoryData exampleStore "2025-01-03"
          ≠ getAllHistoryData exampleStore "2025-01-04" :=
  (history_excluded_is_call_time_today exampleStore "2025-01-03" "2025-01-04"
    (mkRecord "2025-01-03" []) (by decide)).2.2 rfl (by decide)

-- ============================================
-- Offline asset cache (service worker)
-- ============================================

/-- A response as the fetch handler inspects it: HTTP status, response
type (`'basic'` for same-origin), and body.  `clone()` duplicates the
single-read body; in this value-level embedding a clone is the same
value. -/
structure SWResponse where
  status : Nat
  type : String
  body : String
deriving DecidableEq, Repr

/-- A cache generation: responses keyed by request (URL). -/
abbrev SWCache := List (String × SWResponse)

/-- `CACHE_NAME` of the service worker. -/
def CACHE_NAME : String :=
  "daily-checklist-v1"

/-- `FILES_TO_CACHE` of the service worker. -/
def FILES_TO_CACHE : List String :=
  ["/", "/index.html", "/style.css", "/app.js", "/manifest.json"]

/-- `caches.match(request)`: exact request match in the cache. -/
def cacheMatch (c : SWCache) (req : String) : Option SWResponse :=
  match c with
  | [] => none
  | p :: ps => if p.1 = req then some p.2 else cacheMatch ps req

/-- `cache.put(request, response)`: store the response keyed by the
request, replacing any previous entry for that key. -/
def cachePut (c : SWCache) (req : String) (resp : SWResponse) : SWCache :=
  c.filter (fun p => p.1 != req) ++ [(req, resp)]

/-- The fetch event listener (service worker lines 76-113): consult the
cache; on a hit return the cached response without touching the network;
on a miss fetch from the network (`none` models a rejected fetch, handled
by the `.catch` which yields no response), cache the response only when it
is present with status 200 and type `'basic'`, and return it.  The result
is (response given to `respondWith`, cache afterwards, whether the network
was used). -/
def handleFetch (c : SWCache) (net : String → Option SWResponse) (req : String) :
    Option SWResponse × SWCache × Bool :=
  match cacheMatch c req with
  | some response => (some response, c, false)
  | none =>
    match net req with
    | none => (none, c, true)
    | some response =>
      if response.status ≠ 200 ∨ response.type ≠ "basic" then
        (some response, c, true)
      else
        (some response, cachePut c req response, true)

/-- `cache.addAll(paths)` as used by the install listener (lines 23-38):
fetch every path and store the responses; if any fetch fails the whole
operation fails (the Cache API's atomic batch update) and installation is
not signaled as successful.  `none` is the failed install. -/
def addAll (net : String → Option SWResponse) (c : SWCache) :
    List String → Option SWCache
  | [] => some c
  | p :: ps =>
    match net p with
    | none => none
    | some r => addAll net (cachePut c p r) ps

/-- The install event listener: open the `CACHE_NAME` generation (fresh,
empty) and `addAll` the manifest into it; `none` means the install attempt
failed. -/
def installSW (net : String → Option SWResponse) : Option SWCache :=
  addAll net [] FILES_TO_CACHE

/-- `caches.delete(name)` on the set of existing cache generations. -/
def deleteCache (st : List String) (name : String) : List String :=
  st.filter (fun c => c ≠ name)

/-- The activate event listener (lines 46-68): enumerate the existing cache
identifiers (`enum`, some enumeration of the state `st`) and delete every
one that differs from the current identifier. -/
def activateSW (current : String) (enum : List String) (st : List String) :
    List String :=
  enum.foldl (fun s n => if n = current then s else deleteCache s n) st

-- ============================================
-- Helper lemmas about the asset cache
-- ============================================

/-- A freshly put entry is found by a subsequent match. -/
theorem cacheMatch_cachePut (c : SWCache) (req : String) (resp : SWResponse) :
    cacheMatch (cachePut c req resp) req = some resp := by
  unfold cachePut
  induction c with
  | nil => simp [cacheMatch]
  | cons p ps ih =>
    by_cases hp : p.1 = req
    · simpa [List.filter_cons, hp] using ih
    · simpa [List.filter_cons, hp, cacheMatch] using ih

/-- Unfolding lemma: match on the empty cache. -/
theorem cacheMatch_nil (q : String) : cacheMatch [] q = none :=
  rfl

/-- Unfolding lemma: match on a cons cell. -/
theorem cacheMatch_cons (p : String × SWResponse) (ps : SWCache) (q : String) :
    cacheMatch (p :: ps) q = if p.1 = q then some p.2 else cacheMatch ps q :=
  rfl

/-- Putting under one key does not change matches for other keys. -/
theorem cacheMatch_cachePut_ne (c : SWCache) (req q : String) (resp : SWResponse)
    (h : q ≠ req) :
    cacheMatch (cachePut c req resp) q = cacheMatch c q := by
  unfold cachePut
  induction c with
  | nil =>
    rw [List.filter_nil, List.nil_append, cacheMatch_cons,
      if_neg (fun hh => h hh.symm)]
  | cons p ps ih =>
    rw [List.filter_cons]
    by_cases hp : p.1 = req
    · rw [if_neg (by simp [hp]), ih, cacheMatch_cons,
        if_neg (by rw [hp]; exact fun hh => h hh.symm)]
    · rw [if_pos (by simp [hp]), List.cons_append, cacheMatch_cons, cacheMatch_cons]
      by_cases hq : p.1 = q
      · rw [if_pos hq, if_pos hq]
      · rw [if_neg hq, if_neg hq, ih]

/-- Equation lemma: `addAll` on an empty manifest. -/
theorem addAll_nil (net : String → Option SWResponse) (c : SWCache) :
    addAll net c [] = some c :=
  rfl

/-- Equation lemma: `addAll` on a cons manifest. -/
theorem addAll_cons (net : String → Option SWResponse) (c : SWCache) (p : String)
    (ps : List String) :
    addAll net c (p :: ps)
      = match net p with
        | none => none
        | some r => addAll net (cachePut c p r) ps :=
  rfl

/-- `addAll` succeeds exactly when every manifest path can be fetched. -/
theorem addAll_isSome (net : String → Option SWResponse) (ps : List String) :
    ∀ c : SWCache, (addAll net c ps).isSome = true ↔ ∀ p ∈ ps, (net p).isSome = true := by
  induction ps with
  | nil =>
    intro c
    simp [addAll]
  | cons p ps ih =>
    intro c
    cases hnp : net p with
    | none =>
      simp only [show addAll net c (p :: ps) = none by rw [addAll_cons, hnp]]
      constructor
      · intro h
        exact absurd h (by simp)
      · intro hall
        have := hall p (List.mem_cons_self p ps)
        rw [hnp] at this
        exact absurd this (by simp)
    | some r =>
      rw [show addAll net c (p :: ps) = addAll net (cachePut c p r) ps by
        rw [addAll_cons, hnp]]
      rw [ih (cachePut c p r)]
      constructor
      · intro hall q hq
        rcases List.mem_cons.mp hq with hq | hq
        · subst hq
          rw [hnp]
          rfl
        · exact hall q hq
      · intro hall q hq
        exact hall q (List.mem_cons_of_mem p hq)

/-- A successful `addAll` leaves keys outside the manifest untouched. -/
theorem addAll_preserve (net : String → Option SWResponse) (ps : List String) :
    ∀ c c' : SWCache, addAll net c ps = some c' →
      ∀ q, q ∉ ps → cacheMatch c' q = cacheMatch c q := by
  induction ps with
  | nil =>
    intro c c' h q _
    have : c = c' := by simpa [addAll] using h
    rw [this]
  | cons p ps ih =>
    intro c c' h q hq
    have hqp : q ≠ p := fun he => hq (he ▸ List.mem_cons_self p ps)
    have hqps : q ∉ ps := fun hm => hq (List.mem_cons_of_mem p hm)
    cases hnp : net p with
    | none =>
      rw [show addAll net c (p :: ps) = none by rw [addAll_cons, hnp]] at h
      exact absurd h (by simp)
    | some r =>
      rw [show addAll net c (p :: ps) = addAll net (cachePut c p r) ps by
        rw [addAll_cons, hnp]] at h
      rw [ih (cachePut c p r) c' h q hqps]
      exact cacheMatch_cachePut_ne c p q r hqp

/-- A successful `addAll` stores the fetched response for every manifest
path. -/
theorem addAll_stores (net : String → Option SWResponse) (ps : List String) :
    ∀ c c' : SWCache, addAll net c ps = some c' →
      ∀ p ∈ ps, cacheMatch c' p = net p := by
  induction ps with
  | nil =>
    intro c c' _ p hp
    exact absurd hp (List.not_mem_nil p)
  | cons p ps ih =>
    intro c c' h q hq
    cases hnp : net p with
    | none =>
      rw [show addAll net c (p :: ps) = none by rw [addAll_cons, hnp]] at h
      exact absurd h (by simp)
    | some r =>
      rw [show addAll net c (p :: ps) = addAll net (cachePut c p r) ps by
        rw [addAll_cons, hnp]] at h
      rcases List.mem_cons.mp hq with hq | hq
      · subst hq
        by_cases hqin : q ∈ ps
        · exact ih _ c' h q hqin
        · rw [addAll_preserve net ps _ c' h q hqin, cacheMatch_cachePut, hnp]
      · exact ih _ c' h q hq

-- ============================================
-- Claim theorems: offline asset cache
-- ============================================

/-- C4: for every intercepted request, a cache hit returns the cached
response with no network use and an unchanged cache; a miss whose network
response is present with status 200 and type "basic" stores one copy keyed
by the request and returns the other; a miss whose response fails those
criteria is returned unmodified with nothing cached (a subsequent lookup
still misses). -/
theorem fetch_cache_first (c : SWCache) (net : String → Option SWResponse)
    (req : String) :
    (∀ resp, cacheMatch c req = some resp →
        handleFetch c net req = (some resp, c, false))
    ∧ (cacheMatch c req = none → ∀ resp, net req = some resp →
        resp.status = 200 → resp.type = "basic" →
        handleFetch c net req = (some resp, cachePut c req resp, true)
          ∧ cacheMatch (handleFetch c net req).2.1 req = some resp)
    ∧ (cacheMatch c req = none → ∀ resp, net req = some resp →
        (resp.status ≠ 200 ∨ resp.type ≠ "basic") →
        handleFetch c net req = (some resp, c, true)
          ∧ cacheMatch (handleFetch c net req).2.1 req = none) := by
  refine ⟨?_, ?_, ?_⟩
  · intro resp h
    unfold handleFetch
    rw [h]
  · intro hmiss resp hnet hst hty
    have hcond : ¬(resp.status ≠ 200 ∨ resp.type ≠ "basic") := by
      push_neg
      exact ⟨hst, hty⟩
    have heq : handleFetch c net req = (some resp, cachePut c req resp, true) := by
      unfold handleFetch
      rw [hmiss, hnet]
      show (if resp.status ≠ 200 ∨ resp.type ≠ "basic" then (some resp, c, true)
        else (some resp, cachePut c req resp, true))
          = (some resp, cachePut c req resp, true)
      rw [if_neg hcond]
    exact ⟨heq, by rw [heq]; exact cacheMatch_cachePut c req resp⟩
  · intro hmiss resp hnet hcond
    have heq : handleFetch c net req = (some resp, c, true) := by
      unfold handleFetch
      rw [hmiss, hnet]
      show (if resp.status ≠ 200 ∨ resp.type ≠ "basic" then (some resp, c, true)
        else (some resp, cachePut c req resp, true))
          = (some resp, c, true)
      rw [if_pos hcond]
    exact ⟨heq, by rw [heq]; exact hmiss⟩

/-- Witness for C4: a cacheable 200/basic miss populates the cache; a 404
miss is returned but leaves the cache empty. -/
theorem fetch_cache_first_witness :
    handleFetch [] (fun q => some { status := 200, type := "basic", body := q }) "/app.js"
      = (some { status := 200, type := "basic", body := "/app.js" },
         [("/app.js", { status := 200, type := "basic", body := "/app.js" })], true)
    ∧ handleFetch [] (fun q => some { status := 404, type := "basic", body := q }) "/nope"
      = (some { status := 404, type := "basic", body := "/nope" }, [], true) :=
  ⟨((fetch_cache_first [] (fun q => some { status := 200, type := "basic", body := q })
      "/app.js").2.1 rfl _ rfl rfl rfl).1,
   ((fetch_cache_first [] (fun q => some { status := 404, type := "basic", body := q })
      "/nope").2.2 rfl _ rfl (Or.inl (by decide))).1⟩

/-- C5: installation is atomic over the asset manifest: the bulk store
succeeds exactly when every path can be fetched, a successful install has
stored a response for every manifest path, and any failing path makes the
whole install fail (no partially populated generation is signaled
installed). -/
theorem install_atomic (net : String → Option SWResponse) (manifest : List String) :
    ((addAll net [] manifest).isSome = true ↔ ∀ p ∈ manifest, (net p).isSome = true)
    ∧ (∀ c', addAll net [] manifest = some c' →
        ∀ p ∈ manifest, cacheMatch c' p = net p)
    ∧ ((∃ p ∈ FILES_TO_CACHE, net p = none) → installSW net = none)
    ∧ (∀ c', installSW net = some c' →
        ∀ p ∈ FILES_TO_CACHE, (cacheMatch c' p).isSome = true) := by
  refine ⟨addAll_isSome net manifest [],
    fun c' h => addAll_stores net manifest [] c' h, ?_, ?_⟩
  · rintro ⟨p, hp, hnone⟩
    unfold installSW
    cases haa : addAll net [] FILES_TO_CACHE with
    | none => rfl
    | some c' =>
      have hs : (addAll net [] FILES_TO_CACHE).isSome = true := by
        rw [haa]
        rfl
      have := (addAll_isSome net FILES_TO_CACHE []).mp hs p hp
      rw [hnone] at this
      exact absurd this (by simp)
  · intro c' h p hp
    have hstore := addAll_stores net FILES_TO_CACHE [] c' h p hp
    rw [hstore]
    have hs : (addAll net [] FILES_TO_CACHE).isSome = true := by
      rw [show addAll net [] FILES_TO_CACHE = some c' from h]
      rfl
    exact (addAll_isSome net FILES_TO_CACHE []).mp hs p hp

/-- An always-successful network for the install witness. -/
def okNet : String → Option SWResponse :=
  fun p => some { status := 200, type := "basic", body := p }

/-- The cache generation a successful install of `okNet` produces. -/
def okNetCache : SWCache :=
  (installSW okNet).getD []

/-- Witness for C5: with every asset fetchable the install succeeds and the
resulting cache answers each manifest path with its fetched response. -/
theorem install_atomic_witness :
    installSW okNet = some okNetCache
      ∧ cacheMatch okNetCache "/app.js" = okNet "/app.js" :=
  ⟨rfl, (install_atomic okNet FILES_TO_CACHE).2.1 okNetCache rfl "/app.js" (by decide)⟩

/-- Unfolding lemma: one activation step. -/
theorem activateSW_cons (current n : String) (enum st : List String) :
    activateSW current (n :: enum) st
      = activateSW current enum (if n = current then st else deleteCache st n) := by
  unfold activateSW
  rw [List.foldl_cons]

/-- A cache survives activation iff it was present and is either the
current generation or was never enumerated. -/
theorem activate_mem (current : String) : ∀ (enum st : List String) (c : String),
    c ∈ activateSW current enum st ↔ c ∈ st ∧ (c = current ∨ c ∉ enum) := by
  intro enum
  induction enum with
  | nil =>
    intro st c
    simp [activateSW]
  | cons n enum ih =>
    intro st c
    rw [activateSW_cons]
    by_cases hn : n = current
    · rw [if_pos hn, ih st c]
      subst hn
      constructor
      · rintro ⟨hst, hc⟩
        refine ⟨hst, ?_⟩
        rcases hc with hc | hc
        · exact Or.inl hc
        · by_cases hcn : c = n
          · exact Or.inl hcn
          · exact Or.inr (by simp [hcn, hc])
      · rintro ⟨hst, hc⟩
        refine ⟨hst, ?_⟩
        rcases hc with hc | hc
        · exact Or.inl hc
        · exact Or.inr (fun hm => hc (List.mem_cons_of_mem n hm))
    · rw [if_neg hn, ih (deleteCache st n) c]
      unfold deleteCache
      rw [List.mem_filter]
      constructor
      · rintro ⟨⟨hst, hcnb⟩, hc⟩
        have hcn : c ≠ n := by simpa using hcnb
        refine ⟨hst, ?_⟩
        rcases hc with hc | hc
        · exact Or.inl hc
        · exact Or.inr (by simp [hcn, hc])
      · rintro ⟨hst, hc⟩
        rcases hc with hc | hc
        · have hcn : c ≠ n := fun he => hn (he ▸ hc)
          exact ⟨⟨hst, by simpa using hcn⟩, Or.inl hc⟩
        · have hcn : c ≠ n := fun he => hc (he ▸ List.mem_cons_self n enum)
          have hce : c ∉ enum := fun hm => hc (List.mem_cons_of_mem n hm)
          exact ⟨⟨hst, by simpa using hcn⟩, Or.inr hce⟩

/-- When every enumerated identifier equals the current one, activation
deletes nothing. -/
theorem activateSW_skip (current : String) : ∀ (e s : List String),
    (∀ n ∈ e, n = current) → activateSW current e s = s := by
  intro e
  induction e with
  | nil =>
    intro s _
    rfl
  | cons n e ih =>
    intro s hall
    have hn : n = current := hall n (List.mem_cons_self n e)
    rw [activateSW_cons, if_pos hn]
    exact ih s (fun m hm => hall m (List.mem_cons_of_mem n hm))

/-- C6 counterexample: with existing cache identifiers `{stale-cache-v0}`
(the current identifier absent, e.g. after an aborted install of this
generation), activation deletes everything and does NOT leave the
current-version cache present, contradicting the claim's universal "leaves
exactly the current-version cache present afterward". -/
theorem activate_counterexample :
    activateSW CACHE_NAME ["stale-cache-v0"] ["stale-cache-v0"] = []
      ∧ CACHE_NAME ∉ activateSW CACHE_NAME ["stale-cache-v0"] ["stale-cache-v0"] := by
  constructor
  · rfl
  · decide

/-- C6 (amended): activation over any enumeration covering the existing
identifiers deletes exactly the caches differing from the current
identifier — afterwards a cache is present iff it was present and equals
the current identifier (so when the current generation existed beforehand,
it is exactly what survives, independent of enumeration order) — deleting
an absent cache is a no-op, and activation is idempotent. -/
theorem activate_amended (current : String) (enum st : List String)
    (hcov : ∀ c ∈ st, c ∈ enum) :
    (∀ c, c ∈ activateSW current enum st ↔ c ∈ st ∧ c = current)
    ∧ (∀ n, n ∉ st → deleteCache st n = st)
    ∧ activateSW current (activateSW current enum st) (activateSW current enum st)
        = activateSW current enum st := by
  have hmem : ∀ c, c ∈ activateSW current enum st ↔ c ∈ st ∧ c = current := by
    intro c
    rw [activate_mem current enum st c]
    constructor
    · rintro ⟨hst, hc⟩
      refine ⟨hst, ?_⟩
      rcases hc with hc | hc
      · exact hc
      · exact absurd (hcov c hst) hc
    · rintro ⟨hst, hc⟩
      exact ⟨hst, Or.inl hc⟩
  refine ⟨hmem, ?_, ?_⟩
  · intro n hn
    unfold deleteCache
    apply List.filter_eq_self.mpr
    intro a ha
    simp only [decide_eq_true_eq]
    exact fun he => hn (he ▸ ha)
  · exact activateSW_skip current _ _ (fun n hn => ((hmem n).mp hn).2)

/-- Witness for C6 (amended) on the spec's `{v1, v2}` example: with both an
old generation and the current one present, only the current one survives
activation. -/
theorem activate_amended_witness :
    ("daily-checklist-v0" ∈ activateSW CACHE_NAME ["daily-checklist-v0", CACHE_NAME]
        ["daily-checklist-v0", CACHE_NAME]
      ↔ "daily-checklist-v0" ∈ ["daily-checklist-v0", CACHE_NAME]
          ∧ "daily-checklist-v0" = CACHE_NAME) :=
  (activate_amended CACHE_NAME ["daily-checklist-v0", CACHE_NAME]
    ["daily-checklist-v0", CACHE_NAME] (by decide)).1 "daily-checklist-v0"
